import Mathlib

/-!
Verification of the `sec-store` crate: an in-memory, credential-keyed
associative store (`src/lib.rs`) built on an authenticated-encryption
manager (`src/enc.rs`).

Modelling conventions:
* Byte buffers (`&[u8]`, `Vec<u8>`) are `List Nat`.
* The `BTreeMap<u128, Vec<u8>>` is an association list `List (Nat × List Nat)`
  with at most one entry per key (the `keysNodup` predicate); ordering of the
  map is incidental per the design notes and is not modelled.
* The cryptographic primitives (xxh3_128, PBKDF2, ChaCha20-Poly1305) are
  black boxes per the spec ("treated as correct black boxes meeting their
  published security properties", "opaque, effectively-collision-free
  digest").  They are modelled as ideal deterministic functions:
  - `generate_key` packs an injective encoding of (salt, pass) into the first
    byte of an ideal 32-entry key (PBKDF2 is deterministic and distinct
    credential pairs are assumed to give distinct keys);
  - the AEAD seal appends an ideal 16-entry authentication tag whose first
    entry is a MAC over (key, nonce, body); opening recomputes and compares
    the tag, exactly the structure of ChaCha20-Poly1305 sealing with an
    empty AAD (the body is not scrambled, since confidentiality of the
    ciphertext bytes is outside the claims);
  - `xxh3_128` is a stand-in 128-bit digest.
* Rust panics (`assert!`/`assert_ne!`) are modelled by returning `none` from
  an `Option`-valued function: `none` = abort.
  `Manager::encrypt` can only return `false` when `UnboundKey::new` rejects
  the key, which cannot happen for a 32-byte ChaCha20 key, so the model's
  `encrypt` is total and the `assert!(self.enc.encrypt(..))` in
  `insert_owned` never fires.
* Functions taking `&mut` buffers return the new buffer contents alongside
  the result; functions taking `&mut self` return the new store.
  `get`/`get_to`/`get_to_vec` take `&self` in the source and therefore do
  not return a store: they cannot mutate the map by construction.
-/

/-- Injective encoding of a byte list into a `Nat`, used to model ideal
(collision-free) primitives. -/
def encL : List Nat → Nat
  | [] => 0
  | b :: t => Nat.pair b (encL t) + 1

/-- Value of a byte list read as a little-endian positional number
(deterministic; used where only determinism of the primitive matters). -/
def fromLE : List Nat → Nat
  | [] => 0
  | b :: t => fromLE t * 256 + b

/-- Byte `i` of the native-endian (little-endian on the reference platform)
encoding of a `u128`. -/
def nthByte (x i : Nat) : Nat := x / 256 ^ i % 256

/-- Stand-in for `xxhash_rust::xxh3::xxh3_128`: an opaque 128-bit digest of
the logical key (spec: "treated as an opaque, effectively-collision-free
128-bit digest"). -/
def xxh3_128 (data : List Nat) : Nat := encL data % 2 ^ 128

/-- `u128::to_le`: the identity on a little-endian platform. -/
def u128_to_le (x : Nat) : Nat := x

/-- The hashed key used as map index and nonce input:
`xxh3_128(key).to_le()` in the source. -/
def hkey (key : List Nat) : Nat := u128_to_le (xxh3_128 key)

/-- `enc::generate_key`: PBKDF2-HMAC-SHA512 with a fixed iteration count,
producing a 32-byte key.  Modelled as an ideal deterministic KDF: the
injective encoding of the credential pair sits in entry 0 of an otherwise
zero 32-entry list. -/
def generate_key (salt pass : List Nat) : List Nat :=
  Nat.pair (encL salt) (encL pass) :: List.replicate 31 0

/-- The ideal 16-entry authentication tag over (key, nonce, body):
entry 0 is a MAC binding the key (through its first byte, which determines
a `generate_key`-produced key), the 96-bit nonce and the body. -/
def mkTag (key : List Nat) (nonce : List Nat) (body : List Nat) : List Nat :=
  Nat.pair key.headI (Nat.pair (fromLE nonce) (fromLE body)) :: List.replicate 15 0

/-- `enc::Manager`: owns one 32-byte symmetric key for its lifetime. -/
structure Manager where
  key : List Nat
  deriving DecidableEq, Repr

/-- `Manager::get_nonce`: the 96-bit nonce is bytes 0..11 of the
native-endian encoding of the `u128` nonce input, exactly as the source
lists `input[0], input[1], ..., input[11]`. -/
def Manager.get_nonce (_ : Manager) (input : Nat) : List Nat :=
  [nthByte input 0, nthByte input 1, nthByte input 2, nthByte input 3,
   nthByte input 4, nthByte input 5, nthByte input 6, nthByte input 7,
   nthByte input 8, nthByte input 9, nthByte input 10, nthByte input 11]

/-- `Manager::encrypt`: seals `in_out` in place under (key, nonce, empty
AAD), appending the 16-byte tag.  Key setup cannot fail for a 32-byte
ChaCha20 key, so the model is total and returns the sealed buffer. -/
def Manager.encrypt (m : Manager) (nonce : Nat) (in_out : List Nat) : List Nat :=
  in_out ++ mkTag m.key (m.get_nonce nonce) in_out

/-- `Manager::decrypt`: opens `in_out` in place; on success returns the
leading plaintext bytes (buffer length minus the 16-byte tag), on
authentication failure returns `none`. -/
def Manager.decrypt (m : Manager) (nonce : Nat) (in_out : List Nat) : Option (List Nat) :=
  if in_out.length < 16 then none
  else
    let body := in_out.take (in_out.length - 16)
    if in_out.drop (in_out.length - 16) = mkTag m.key (m.get_nonce nonce) body then
      some body
    else
      none

/-- The backing map `BTreeMap<u128, Vec<u8>>`, as an association list. -/
abbrev StoreMap := List (Nat × List Nat)

/-- `BTreeMap::get`. -/
def mapGet : StoreMap → Nat → Option (List Nat)
  | [], _ => none
  | (k, v) :: t, key => if k = key then some v else mapGet t key

/-- `BTreeMap::insert`: stores `v` under `key`, returning the previous
value, if any. -/
def mapInsert : StoreMap → Nat → List Nat → Option (List Nat) × StoreMap
  | [], key, v => (none, [(key, v)])
  | (k, w) :: t, key, v =>
    if k = key then (some w, (key, v) :: t)
    else
      let r := mapInsert t key v
      (r.1, (k, w) :: r.2)

/-- `BTreeMap::remove`: removes `key`, returning the previous value, if
any. -/
def mapRemove : StoreMap → Nat → Option (List Nat) × StoreMap
  | [], _ => (none, [])
  | (k, w) :: t, key =>
    if k = key then (some w, t)
    else
      let r := mapRemove t key
      (r.1, (k, w) :: r.2)

/-- The backing map has at most one entry per hashed key (invariant of
`BTreeMap`). -/
def keysNodup (m : StoreMap) : Prop := (m.map Prod.fst).Nodup

instance (m : StoreMap) : Decidable (keysNodup m) :=
  inferInstanceAs (Decidable (m.map Prod.fst).Nodup)

/-- Number of entries of `m` stored under hashed key `h`. -/
def countKey (m : StoreMap) (h : Nat) : Nat :=
  (m.filter (fun e => e.1 = h)).length

/-- `Store`: hashed keys mapped to ciphertext, plus one encryption
manager. -/
structure Store where
  inner : StoreMap
  enc : Manager
  deriving DecidableEq, Repr

/-- `Store::from_inner`: wraps a caller-supplied map with a freshly derived
key.  `assert_ne!(user.len(), 0)` and `assert_ne!(pass.len(), 0)` abort on
empty credentials (`none`). -/
def Store.from_inner (inner : StoreMap) (user pass : List Nat) : Option Store :=
  if user.length = 0 then none
  else if pass.length = 0 then none
  else some { inner := inner, enc := { key := generate_key user pass } }

/-- `Store::new`: `from_inner` on the default (empty) map. -/
def Store.new (user pass : List Nat) : Option Store :=
  Store.from_inner [] user pass

/-- `Store::into_inner` (and the borrow `Store::inner`). -/
def Store.into_inner (s : Store) : StoreMap := s.inner

/-- `Store::len`. -/
def Store.len (s : Store) : Nat := s.inner.length

/-- `Store::inner_get_to`: looks `key` up; with insufficient space returns
`Ok(0)` before touching the buffer; otherwise copies the ciphertext into
the front of `dest` and decrypts that prefix in place.  Returns the result
together with the final contents of `dest`. -/
def Store.inner_get_to (s : Store) (key : Nat) (dest : List Nat) :
    Except Unit Nat × List Nat :=
  match mapGet s.inner key with
  | some value =>
    if value.length > dest.length then (Except.ok 0, dest)
    else
      let d := value ++ dest.drop value.length
      match s.enc.decrypt key (d.take value.length) with
      | some written => (Except.ok written.length, d)
      | none => (Except.error (), d)
  | none => (Except.error (), dest)

/-- `Store::inner_get_to_vec`: truncates `dest`, copies the ciphertext in,
decrypts in place and truncates to the plaintext length.  Returns the
result together with the final contents of `dest`. -/
def Store.inner_get_to_vec (s : Store) (key : Nat) (dest : List Nat) :
    Except Unit Nat × List Nat :=
  match mapGet s.inner key with
  | some value =>
    match s.enc.decrypt key value with
    | some written => (Except.ok written.length, written)
    | none => (Except.error (), value)
  | none => (Except.error (), dest)

/-- `Store::get_to`. -/
def Store.get_to (s : Store) (key : List Nat) (dest : List Nat) :
    Except Unit Nat × List Nat :=
  s.inner_get_to (hkey key) dest

/-- `Store::get_to_vec`. -/
def Store.get_to_vec (s : Store) (key : List Nat) (dest : List Nat) :
    Except Unit Nat × List Nat :=
  s.inner_get_to_vec (hkey key) dest

/-- `Store::get`: `get_to_vec` into a fresh vector; `Err` becomes `none`. -/
def Store.get (s : Store) (key : List Nat) : Option (List Nat) :=
  match s.get_to_vec key [] with
  | (Except.ok _, result) => some result
  | (Except.error _, _) => none

/-- `Store::insert_owned`: aborts (`none`) on an empty value
(`assert_ne!(value.len(), 0)`); otherwise encrypts the value in place,
stores the ciphertext unconditionally, and returns the decrypted previous
value if one existed and decrypts under the current key. -/
def Store.insert_owned (s : Store) (key value : List Nat) :
    Option (Option (List Nat) × Store) :=
  if value.length = 0 then none
  else
    let k := hkey key
    let sealed := s.enc.encrypt k value
    let r := mapInsert s.inner k sealed
    some (r.1.bind (fun v => s.enc.decrypt k v), { s with inner := r.2 })

/-- `Store::insert`: `insert_owned` on an owned copy of `value`. -/
def Store.insert (s : Store) (key value : List Nat) :
    Option (Option (List Nat) × Store) :=
  s.insert_owned key value

/-- `Store::remove_to`: `inner_get_to`, then removal from the map only when
the result is `Ok(n)` with `n ≠ 0`. -/
def Store.remove_to (s : Store) (key : List Nat) (dest : List Nat) :
    (Except Unit Nat × List Nat) × Store :=
  let k := hkey key
  match s.inner_get_to k dest with
  | (Except.ok n, d) =>
    if n = 0 then ((Except.ok 0, d), s)
    else ((Except.ok n, d), { s with inner := (mapRemove s.inner k).2 })
  | (Except.error e, d) => ((Except.error e, d), s)

/-- `Store::remove_to_vec`: `inner_get_to_vec`, then removal from the map
on any `Ok` result. -/
def Store.remove_to_vec (s : Store) (key : List Nat) (dest : List Nat) :
    (Except Unit Nat × List Nat) × Store :=
  let k := hkey key
  match s.inner_get_to_vec k dest with
  | (Except.ok n, d) => ((Except.ok n, d), { s with inner := (mapRemove s.inner k).2 })
  | (Except.error e, d) => ((Except.error e, d), s)

/-- `Store::remove`: `remove_to_vec` into a fresh vector. -/
def Store.remove (s : Store) (key : List Nat) : Option (List Nat) × Store :=
  match s.remove_to_vec key [] with
  | ((Except.ok _, d), t) => (some d, t)
  | ((Except.error _, _), t) => (none, t)

/-- `Store::remove_key`: unconditional removal by hashed key. -/
def Store.remove_key (s : Store) (key : List Nat) : Bool × Store :=
  let r := mapRemove s.inner (hkey key)
  (r.1.isSome, { s with inner := r.2 })

/-- One map entry is a well-formed seal under key `k`: a non-empty body
followed by the matching tag for this entry's hashed key. -/
def entrySealed (k : List Nat) (e : Nat × List Nat) : Bool :=
  17 ≤ e.2.length &&
    e.2 == e.2.take (e.2.length - 16) ++
      mkTag k (Manager.get_nonce { key := k } e.1) (e.2.take (e.2.length - 16))

/-- Store invariant: the manager holds key `k` and every entry in the map
was sealed under `k` with this entry's hashed key as nonce input (spec §3:
"every value present in the map was produced by sealing under the manager's
current key and the map's own hashed-key nonce"). -/
def storeSealed (k : List Nat) (s : Store) : Bool :=
  s.enc.key == k && s.inner.all (entrySealed k)

/-- `u128::to_ne_bytes`: the 16 bytes of a `u128`, little-endian on the
reference platform. -/
def u128_to_ne_bytes (x : Nat) : List Nat :=
  (List.range 16).map (nthByte x)

deriving instance DecidableEq for Except

/-! ### Concrete example data, used to witness the theorems below -/

/-- A store freshly created with credentials user `[1]`, pass `[2]`
(the result of `Store::new([1], [2])`). -/
def exStore0 : Store :=
  { inner := [], enc := { key := generate_key [1] [2] } }

/-- The ciphertext `exStore0` produces for key `[7]`, value `[5]`. -/
def exCipher1 : List Nat :=
  Manager.encrypt { key := generate_key [1] [2] } (hkey [7]) [5]

/-- `exStore0` after `insert([7], [5])`. -/
def exStore1 : Store :=
  { inner := [(hkey [7], exCipher1)], enc := { key := generate_key [1] [2] } }

/-- The ciphertext `exStore1` produces for key `[7]`, value `[6]`. -/
def exCipher2 : List Nat :=
  Manager.encrypt { key := generate_key [1] [2] } (hkey [7]) [6]

/-- `exStore1` after `insert([7], [6])`. -/
def exStore2 : Store :=
  { inner := [(hkey [7], exCipher2)], enc := { key := generate_key [1] [2] } }

/-- `exStore1` exported and reconstructed with the wrong passphrase `[3]`. -/
def exStoreWrong : Store :=
  { inner := [(hkey [7], exCipher1)], enc := { key := generate_key [1] [3] } }

/-! ### Supporting lemmas -/

theorem encL_injective : Function.Injective encL := by
  intro a
  induction a with
  | nil =>
    intro b h
    cases b with
    | nil => rfl
    | cons y t => simp [encL] at h
  | cons x t ih =>
    intro b h
    cases b with
    | nil => simp [encL] at h
    | cons y u =>
      simp only [encL, Nat.add_right_cancel_iff, Nat.pair_eq_pair] at h
      rcases h with ⟨rfl, h2⟩
      rw [ih h2]

theorem mkTag_length (k n b : List Nat) : (mkTag k n b).length = 16 := by
  simp [mkTag]

theorem mkTag_head_ne (k k' n n' b b' : List Nat) (h : k.headI ≠ k'.headI) :
    mkTag k n b ≠ mkTag k' n' b' := by
  intro heq
  have h0 : (mkTag k n b).headI = (mkTag k' n' b').headI := by rw [heq]
  simp only [mkTag, List.headI] at h0
  exact h (Nat.pair_eq_pair.mp h0).1

theorem Manager.decrypt_encrypt (m : Manager) (n : Nat) (v : List Nat) :
    m.decrypt n (m.encrypt n v) = some v := by
  have hlen : (m.encrypt n v).length = v.length + 16 := by
    simp [Manager.encrypt, mkTag_length]
  have hsub : (m.encrypt n v).length - 16 = v.length := by omega
  have htake : (m.encrypt n v).take ((m.encrypt n v).length - 16) = v := by
    rw [hsub, Manager.encrypt, List.take_left]
  have hdrop : (m.encrypt n v).drop ((m.encrypt n v).length - 16) =
      mkTag m.key (m.get_nonce n) v := by
    rw [hsub, Manager.encrypt, List.drop_left]
  rw [Manager.decrypt]
  rw [if_neg (by omega)]
  simp [htake, hdrop]

theorem Manager.decrypt_encrypt_ne_key (k k' : List Nat) (n : Nat) (v : List Nat)
    (h : k.headI ≠ k'.headI) :
    Manager.decrypt { key := k' } n (Manager.encrypt { key := k } n v) = none := by
  have hlen : (Manager.encrypt { key := k } n v).length = v.length + 16 := by
    simp [Manager.encrypt, mkTag_length]
  have hsub : (Manager.encrypt { key := k } n v).length - 16 = v.length := by omega
  have htake : (Manager.encrypt { key := k } n v).take
      ((Manager.encrypt { key := k } n v).length - 16) = v := by
    rw [hsub, Manager.encrypt, List.take_left]
  have hdrop : (Manager.encrypt { key := k } n v).drop
      ((Manager.encrypt { key := k } n v).length - 16) =
      mkTag k (Manager.get_nonce { key := k } n) v := by
    rw [hsub, Manager.encrypt, List.drop_left]
  rw [Manager.decrypt]
  rw [if_neg (by omega)]
  simp only [htake, hdrop]
  rw [if_neg]
  exact mkTag_head_ne k k' _ _ v v h

theorem Manager.decrypt_some_length (m : Manager) (n : Nat) (c w : List Nat)
    (h : m.decrypt n c = some w) : 16 ≤ c.length ∧ w.length = c.length - 16 := by
  rw [Manager.decrypt] at h
  by_cases h16 : c.length < 16
  · rw [if_pos h16] at h
    exact absurd h (by simp)
  · rw [if_neg h16] at h
    constructor
    · omega
    · by_cases htag : c.drop (c.length - 16) =
          mkTag m.key (m.get_nonce n) (c.take (c.length - 16))
      · rw [if_pos htag] at h
        cases h
        simp only [List.length_take]
        omega
      · rw [if_neg htag] at h
        exact absurd h (by simp)

theorem mapInsert_fst (m : StoreMap) (k : Nat) (v : List Nat) :
    (mapInsert m k v).1 = mapGet m k := by
  induction m with
  | nil => rfl
  | cons e t ih =>
    obtain ⟨k', w⟩ := e
    by_cases h : k' = k
    · simp [mapInsert, mapGet, h]
    · simp [mapInsert, mapGet, h, ih]

theorem mapGet_mapInsert_self (m : StoreMap) (k : Nat) (v : List Nat) :
    mapGet (mapInsert m k v).2 k = some v := by
  induction m with
  | nil => simp [mapInsert, mapGet]
  | cons e t ih =>
    obtain ⟨k', w⟩ := e
    by_cases h : k' = k
    · simp [mapInsert, mapGet, h]
    · simp [mapInsert, mapGet, h, ih]

theorem mapGet_mem (m : StoreMap) (h : Nat) (c : List Nat)
    (hg : mapGet m h = some c) : (h, c) ∈ m := by
  induction m with
  | nil => simp [mapGet] at hg
  | cons e t ih =>
    obtain ⟨k', w⟩ := e
    by_cases hk : k' = h
    · rw [mapGet, if_pos hk] at hg
      cases hg
      subst hk
      exact List.mem_cons_self _ _
    · rw [mapGet, if_neg hk] at hg
      exact List.mem_cons_of_mem _ (ih hg)

theorem countKey_eq_zero_of_not_mem (m : StoreMap) (k : Nat)
    (h : k ∉ m.map Prod.fst) : countKey m k = 0 := by
  induction m with
  | nil => rfl
  | cons e t ih =>
    obtain ⟨k', w⟩ := e
    simp only [List.map_cons, List.mem_cons, not_or] at h
    have hne : ¬(k' = k) := fun hc => h.1 hc.symm
    simp only [countKey, List.filter_cons, decide_eq_true_eq]
    rw [if_neg hne]
    exact ih h.2

theorem countKey_mapInsert (m : StoreMap) (k : Nat) (v : List Nat)
    (hnd : keysNodup m) : countKey (mapInsert m k v).2 k = 1 := by
  induction m with
  | nil => simp [mapInsert, countKey, List.filter_cons]
  | cons e t ih =>
    obtain ⟨k', w⟩ := e
    simp only [keysNodup, List.map_cons, List.nodup_cons] at hnd
    by_cases h : k' = k
    · subst h
      simp only [mapInsert, if_pos rfl]
      simp only [countKey, List.filter_cons, decide_eq_true_eq, if_pos rfl]
      have h0 : countKey t k' = 0 := countKey_eq_zero_of_not_mem t k' hnd.1
      simp only [countKey] at h0
      simp [h0]
    · simp only [mapInsert, if_neg h]
      simp only [countKey, List.filter_cons, decide_eq_true_eq]
      rw [if_neg h]
      exact ih hnd.2

theorem mapInsert_keys_sub (m : StoreMap) (k : Nat) (v : List Nat) (x : Nat) :
    x ∈ (mapInsert m k v).2.map Prod.fst → x ∈ m.map Prod.fst ∨ x = k := by
  induction m with
  | nil =>
    intro hx
    simpa [mapInsert] using hx
  | cons e t ih =>
    obtain ⟨k', w⟩ := e
    intro hx
    by_cases h : k' = k
    · subst h
      simp [mapInsert] at hx
      rcases hx with hx | ⟨y, hy⟩
      · exact Or.inr hx
      · exact Or.inl (List.mem_cons_of_mem _ (List.mem_map_of_mem Prod.fst hy))
    · simp only [mapInsert, if_neg h, List.map_cons, List.mem_cons] at hx
      rcases hx with hx | hx
      · exact Or.inl (by simp [hx])
      · rcases ih hx with hx' | hx'
        · exact Or.inl (List.mem_cons_of_mem _ hx')
        · exact Or.inr hx'

theorem keysNodup_mapInsert (m : StoreMap) (k : Nat) (v : List Nat)
    (hnd : keysNodup m) : keysNodup (mapInsert m k v).2 := by
  induction m with
  | nil => simp [mapInsert, keysNodup]
  | cons e t ih =>
    obtain ⟨k', w⟩ := e
    simp only [keysNodup, List.map_cons, List.nodup_cons] at hnd
    by_cases h : k' = k
    · subst h
      simp only [mapInsert, if_pos rfl]
      simpa [keysNodup] using hnd
    · simp only [mapInsert, if_neg h]
      simp only [keysNodup, List.map_cons, List.nodup_cons]
      refine ⟨fun hc => ?_, ih hnd.2⟩
      rcases mapInsert_keys_sub t k v k' hc with hx | hx
      · exact hnd.1 hx
      · exact h hx

theorem storeSealed_key (k : List Nat) (s : Store)
    (h : storeSealed k s = true) : s.enc.key = k := by
  simp only [storeSealed, Bool.and_eq_true, beq_iff_eq] at h
  exact h.1

theorem storeSealed_get (k : List Nat) (s : Store) (h : Nat) (c : List Nat)
    (hs : storeSealed k s = true) (hg : mapGet s.inner h = some c) :
    entrySealed k (h, c) = true := by
  simp only [storeSealed, Bool.and_eq_true, List.all_eq_true] at hs
  exact hs.2 _ (mapGet_mem _ _ _ hg)

theorem entrySealed_spec (k : List Nat) (h : Nat) (c : List Nat)
    (he : entrySealed k (h, c) = true) :
    17 ≤ c.length ∧
      c = c.take (c.length - 16) ++
        mkTag k (Manager.get_nonce { key := k } h) (c.take (c.length - 16)) := by
  simpa only [entrySealed, Bool.and_eq_true, decide_eq_true_eq, beq_iff_eq] using he

theorem decrypt_entrySealed_ne (k k' : List Nat) (h : Nat) (c : List Nat)
    (he : entrySealed k (h, c) = true) (hk : k.headI ≠ k'.headI) :
    Manager.decrypt { key := k' } h c = none := by
  obtain ⟨hlen, hc⟩ := entrySealed_spec k h c he
  generalize hb : c.take (c.length - 16) = b at hc
  have hblen : b.length = c.length - 16 := by
    rw [← hb]
    simp only [List.length_take]
    omega
  have hdrop : c.drop (c.length - 16) =
      mkTag k (Manager.get_nonce { key := k } h) b := by
    rw [← hblen]
    conv_lhs => rw [hc]
    exact List.drop_left _ _
  rw [Manager.decrypt]
  rw [if_neg (by omega)]
  simp only [hb, hdrop]
  rw [if_neg]
  exact mkTag_head_ne k k' _ _ _ _ hk

theorem decrypt_entrySealed_eq (k : List Nat) (h : Nat) (c : List Nat)
    (he : entrySealed k (h, c) = true) :
    Manager.decrypt { key := k } h c = some (c.take (c.length - 16)) := by
  obtain ⟨hlen, hc⟩ := entrySealed_spec k h c he
  generalize hb : c.take (c.length - 16) = b at hc ⊢
  have hblen : b.length = c.length - 16 := by
    rw [← hb]
    simp only [List.length_take]
    omega
  have hdrop : c.drop (c.length - 16) =
      mkTag k (Manager.get_nonce { key := k } h) b := by
    rw [← hblen]
    conv_lhs => rw [hc]
    exact List.drop_left _ _
  rw [Manager.decrypt]
  rw [if_neg (by omega)]
  simp [hb, hdrop]

theorem entrySealed_encrypt (k : List Nat) (h : Nat) (v : List Nat) (hv : v ≠ []) :
    entrySealed k (h, Manager.encrypt { key := k } h v) = true := by
  have hvlen : 1 ≤ v.length := by
    cases v with
    | nil => exact absurd rfl hv
    | cons a t => simp
  have hlen : (Manager.encrypt { key := k } h v).length = v.length + 16 := by
    simp [Manager.encrypt, mkTag_length]
  have hsub : (Manager.encrypt { key := k } h v).length - 16 = v.length := by omega
  have htake : (Manager.encrypt { key := k } h v).take
      ((Manager.encrypt { key := k } h v).length - 16) = v := by
    rw [hsub, Manager.encrypt, List.take_left]
  simp only [entrySealed, Bool.and_eq_true, decide_eq_true_eq, beq_iff_eq]
  constructor
  · omega
  · rw [htake]
    rfl

theorem all_entrySealed_mapInsert (k : List Nat) (m : StoreMap) (h : Nat) (v : List Nat)
    (hm : m.all (entrySealed k) = true) (hv : entrySealed k (h, v) = true) :
    (mapInsert m h v).2.all (entrySealed k) = true := by
  induction m with
  | nil => simpa [mapInsert]
  | cons e t ih =>
    obtain ⟨k', w⟩ := e
    simp only [List.all_cons, Bool.and_eq_true] at hm
    by_cases hk : k' = h
    · subst hk
      simp [mapInsert, hv, hm.2]
    · simp only [mapInsert, if_neg hk, List.all_cons, Bool.and_eq_true]
      exact ⟨hm.1, ih hm.2⟩

theorem storeSealed_insert (k : List Nat) (s s' : Store) (key value : List Nat)
    (r : Option (List Nat)) (hs : storeSealed k s = true)
    (hi : s.insert_owned key value = some (r, s')) : storeSealed k s' = true := by
  have hkeyeq : s.enc.key = k := storeSealed_key k s hs
  have henc : s.enc = { key := k } := by
    have heta : s.enc = { key := s.enc.key } := rfl
    rw [heta, hkeyeq]
  rw [Store.insert_owned] at hi
  by_cases hv : value.length = 0
  · rw [if_pos hv] at hi
    exact absurd hi (by simp)
  · rw [if_neg hv] at hi
    simp only [Option.some.injEq, Prod.mk.injEq] at hi
    have hs' : s' = { s with inner := (mapInsert s.inner (hkey key) (s.enc.encrypt (hkey key) value)).2 } := hi.2.symm
    rw [hs']
    simp only [storeSealed, Bool.and_eq_true, beq_iff_eq]
    refine ⟨hkeyeq, ?_⟩
    simp only [storeSealed, Bool.and_eq_true] at hs
    refine all_entrySealed_mapInsert k s.inner (hkey key) _ hs.2 ?_
    rw [henc]
    exact entrySealed_encrypt k (hkey key) value (by
      intro hc
      exact hv (by simp [hc]))

theorem storeSealed_new (u p : List Nat) (s : Store)
    (h : Store.new u p = some s) : storeSealed (generate_key u p) s = true := by
  rw [Store.new, Store.from_inner] at h
  by_cases hu : u.length = 0
  · rw [if_pos hu] at h
    exact absurd h (by simp)
  · rw [if_neg hu] at h
    by_cases hp : p.length = 0
    · rw [if_pos hp] at h
      exact absurd h (by simp)
    · rw [if_neg hp] at h
      cases h
      simp [storeSealed]

theorem generate_key_head_ne (u p u' p' : List Nat) (h : u ≠ u' ∨ p ≠ p') :
    (generate_key u p).headI ≠ (generate_key u' p').headI := by
  simp only [generate_key, List.headI]
  intro hc
  have h2 := Nat.pair_eq_pair.mp hc
  rcases h with h | h
  · exact h (encL_injective h2.1)
  · exact h (encL_injective h2.2)

theorem inner_get_to_of_none (s : Store) (k : Nat) (dest : List Nat)
    (hm : mapGet s.inner k = none) :
    s.inner_get_to k dest = (Except.error (), dest) := by
  rw [Store.inner_get_to, hm]

theorem inner_get_to_of_small (s : Store) (k : Nat) (dest c : List Nat)
    (hm : mapGet s.inner k = some c) (hlen : c.length > dest.length) :
    s.inner_get_to k dest = (Except.ok 0, dest) := by
  rw [Store.inner_get_to, hm]
  simp only [if_pos hlen]

theorem inner_get_to_of_fit (s : Store) (k : Nat) (dest c : List Nat)
    (hm : mapGet s.inner k = some c) (hlen : ¬c.length > dest.length) :
    s.inner_get_to k dest =
      match s.enc.decrypt k c with
      | some w => (Except.ok w.length, c ++ dest.drop c.length)
      | none => (Except.error (), c ++ dest.drop c.length) := by
  rw [Store.inner_get_to, hm]
  simp only [if_neg hlen, List.take_left]

theorem inner_get_to_vec_of_none (s : Store) (k : Nat) (dest : List Nat)
    (hm : mapGet s.inner k = none) :
    s.inner_get_to_vec k dest = (Except.error (), dest) := by
  rw [Store.inner_get_to_vec, hm]

theorem inner_get_to_vec_of_some (s : Store) (k : Nat) (dest c : List Nat)
    (hm : mapGet s.inner k = some c) :
    s.inner_get_to_vec k dest =
      match s.enc.decrypt k c with
      | some w => (Except.ok w.length, w)
      | none => (Except.error (), c) := by
  rw [Store.inner_get_to_vec, hm]

theorem get_eq_bind (s : Store) (K : List Nat) :
    s.get K = (mapGet s.inner (hkey K)).bind (s.enc.decrypt (hkey K)) := by
  rw [Store.get, Store.get_to_vec]
  cases hm : mapGet s.inner (hkey K) with
  | none =>
    rw [inner_get_to_vec_of_none s _ _ hm]
    rfl
  | some c =>
    rw [inner_get_to_vec_of_some s _ _ c hm]
    cases hd : s.enc.decrypt (hkey K) c with
    | none => simp [hd]
    | some w => simp [hd]

theorem insert_owned_eq (s : Store) (K V : List Nat) (hV : V ≠ []) :
    s.insert_owned K V =
      some ((mapGet s.inner (hkey K)).bind (s.enc.decrypt (hkey K)),
        { s with inner := (mapInsert s.inner (hkey K) (s.enc.encrypt (hkey K) V)).2 }) := by
  rw [Store.insert_owned]
  rw [if_neg (by simpa using hV)]
  simp [mapInsert_fst]

theorem remove_to_snd_of_fail (s : Store) (K dest c : List Nat)
    (hc : mapGet s.inner (hkey K) = some c)
    (hd : s.enc.decrypt (hkey K) c = none) :
    (s.remove_to K dest).2 = s := by
  rw [Store.remove_to]
  by_cases hlen : c.length > dest.length
  · rw [inner_get_to_of_small s _ _ c hc hlen]
    rfl
  · rw [inner_get_to_of_fit s _ _ c hc hlen, hd]

theorem remove_to_vec_of_fail (s : Store) (K dest c : List Nat)
    (hc : mapGet s.inner (hkey K) = some c)
    (hd : s.enc.decrypt (hkey K) c = none) :
    s.remove_to_vec K dest = ((Except.error (), c), s) := by
  rw [Store.remove_to_vec]
  rw [inner_get_to_vec_of_some s _ _ c hc, hd]

theorem remove_of_fail (s : Store) (K c : List Nat)
    (hc : mapGet s.inner (hkey K) = some c)
    (hd : s.enc.decrypt (hkey K) c = none) :
    s.remove K = (none, s) := by
  rw [Store.remove, remove_to_vec_of_fail s K [] c hc hd]

/-! ### Claim theorems -/

/-- C1: for every non-empty logical key K and non-empty value V, on any
store (built with some credentials), `insert(K, V)` followed by `get(K)`
on the resulting store returns exactly V. -/
theorem round_trip (s s' : Store) (K V : List Nat) (r : Option (List Nat))
    (_hK : K ≠ []) (hV : V ≠ [])
    (h : s.insert_owned K V = some (r, s')) : s'.get K = some V := by
  rw [insert_owned_eq s K V hV] at h
  simp only [Option.some.injEq, Prod.mk.injEq] at h
  obtain ⟨hr, hs'⟩ := h
  subst hs'
  rw [get_eq_bind]
  simp only [mapGet_mapInsert_self]
  simp [Manager.decrypt_encrypt]

theorem round_trip_witness :
    ([7] : List Nat) ≠ [] ∧ ([5] : List Nat) ≠ [] ∧ exStore1.get [7] = some [5] :=
  ⟨by decide, by decide,
    round_trip exStore0 exStore1 [7] [5] none (by decide) (by decide) (by decide)⟩

/-- C2: whenever a remove operation (`remove`, `remove_to`,
`remove_to_vec`) encounters a decryption failure on the entry stored for
the key, the underlying map — indeed the whole store — is left unchanged;
the read operations `get`/`get_to`/`get_to_vec` take `&self` in the source
and are modelled as functions that return no store, so they can never
mutate the map. -/
theorem decrypt_failure_no_mutation (s : Store) (K dest destv c : List Nat)
    (hc : mapGet s.inner (hkey K) = some c)
    (hd : s.enc.decrypt (hkey K) c = none) :
    (s.remove_to K dest).2 = s ∧ (s.remove_to_vec K destv).2 = s ∧
      (s.remove K).2 = s :=
  ⟨remove_to_snd_of_fail s K dest c hc hd,
   by rw [remove_to_vec_of_fail s K destv c hc hd],
   by rw [remove_of_fail s K c hc hd]⟩

theorem decrypt_failure_no_mutation_witness :
    (exStoreWrong.remove_to [7] []).2 = exStoreWrong ∧
      (exStoreWrong.remove_to_vec [7] []).2 = exStoreWrong ∧
      (exStoreWrong.remove [7]).2 = exStoreWrong :=
  decrypt_failure_no_mutation exStoreWrong [7] [] [] exCipher1 (by decide) (by decide)

/-- C5: for every `insert(K, V)` with non-empty V: the new ciphertext for
K is stored unconditionally, the returned value is the decrypted previous
ciphertext when one existed and decrypts under the current key, and `none`
otherwise — in particular a previous ciphertext that fails to decrypt is
still replaced, with `none` returned. -/
theorem insert_stores_unconditionally (s s' : Store) (K V : List Nat)
    (r : Option (List Nat)) (hV : V ≠ [])
    (h : s.insert_owned K V = some (r, s')) :
    mapGet s'.inner (hkey K) = some (s.enc.encrypt (hkey K) V) ∧
      r = (mapGet s.inner (hkey K)).bind (s.enc.decrypt (hkey K)) ∧
      s'.enc = s.enc := by
  rw [insert_owned_eq s K V hV] at h
  simp only [Option.some.injEq, Prod.mk.injEq] at h
  obtain ⟨hr, hs'⟩ := h
  subst hs'
  exact ⟨mapGet_mapInsert_self _ _ _, hr.symm, rfl⟩

theorem insert_stores_unconditionally_witness :
    mapGet exStore2.inner (hkey [7]) =
        some (exStore1.enc.encrypt (hkey [7]) [6]) ∧
      (some [5] : Option (List Nat)) =
        (mapGet exStore1.inner (hkey [7])).bind (exStore1.enc.decrypt (hkey [7])) ∧
      exStore2.enc = exStore1.enc :=
  insert_stores_unconditionally exStore1 exStore2 [7] [6] (some [5])
    (by decide) (by decide)

theorem from_inner_some (m : StoreMap) (u p : List Nat) (t : Store)
    (h : Store.from_inner m u p = some t) :
    t = { inner := m, enc := { key := generate_key u p } } := by
  rw [Store.from_inner] at h
  by_cases hu : u.length = 0
  · rw [if_pos hu] at h
    exact absurd h (by simp)
  · rw [if_neg hu] at h
    by_cases hp : p.length = 0
    · rw [if_pos hp] at h
      exact absurd h (by simp)
    · rw [if_neg hp] at h
      exact (Option.some.inj h).symm

/-- C3: a populated store exported via `into_inner` and reconstructed via
`from_inner` with a different user or a different passphrase behaves, for
every previously inserted key, as if the key were not present: `get`
returns `none`, `remove` returns `none` and leaves the store (hence the
entry) untouched, and `len()` is unchanged. -/
theorem wrong_credential_opacity (u p u' p' : List Nat) (s t : Store)
    (K c : List Nat)
    (hcred : u ≠ u' ∨ p ≠ p')
    (hsealed : storeSealed (generate_key u p) s = true)
    (hmem : mapGet s.inner (hkey K) = some c)
    (ht : Store.from_inner s.into_inner u' p' = some t) :
    t.get K = none ∧ t.remove K = (none, t) ∧ t.len = s.len := by
  have ht' := from_inner_some _ _ _ _ ht
  subst ht'
  have he := storeSealed_get _ s (hkey K) c hsealed hmem
  have hd : Manager.decrypt { key := generate_key u' p' } (hkey K) c = none :=
    decrypt_entrySealed_ne (generate_key u p) (generate_key u' p') (hkey K) c he
      (generate_key_head_ne u p u' p' hcred)
  have hmem' : mapGet (Store.into_inner s) (hkey K) = some c := hmem
  refine ⟨?_, ?_, rfl⟩
  · rw [get_eq_bind]
    simp only [hmem']
    simpa using hd
  · exact remove_of_fail _ K c hmem' hd

theorem wrong_credential_opacity_witness :
    Store.from_inner exStore1.into_inner [1] [3] = some exStoreWrong ∧
      exStoreWrong.get [7] = none ∧
      exStoreWrong.remove [7] = (none, exStoreWrong) ∧
      exStoreWrong.len = exStore1.len :=
  ⟨by decide,
    wrong_credential_opacity [1] [2] [1] [3] exStore1 exStoreWrong [7] exCipher1
      (Or.inr (by decide)) (by decide) (by decide) (by decide)⟩

/-- C4: on a store with matching credentials (and the `BTreeMap` no-duplicate
invariant), `insert(K, V1)` followed by `insert(K, V2)` makes the second
insert return V1, leaves exactly one entry stored for K, and a subsequent
`get(K)` returns V2. -/
theorem overwrite_semantics (s s1 s2 : Store) (K V1 V2 : List Nat)
    (r1 r2 : Option (List Nat))
    (hnd : keysNodup s.inner) (_hK : K ≠ []) (hV1 : V1 ≠ []) (hV2 : V2 ≠ [])
    (h1 : s.insert K V1 = some (r1, s1))
    (h2 : s1.insert K V2 = some (r2, s2)) :
    r2 = some V1 ∧ countKey s2.inner (hkey K) = 1 ∧ s2.get K = some V2 := by
  rw [Store.insert, insert_owned_eq s K V1 hV1] at h1
  simp only [Option.some.injEq, Prod.mk.injEq] at h1
  obtain ⟨hr1, hs1⟩ := h1
  subst hs1
  rw [Store.insert, insert_owned_eq _ K V2 hV2] at h2
  simp only [Option.some.injEq, Prod.mk.injEq] at h2
  obtain ⟨hr2, hs2⟩ := h2
  subst hs2
  refine ⟨?_, ?_, ?_⟩
  · rw [← hr2]
    simp [mapGet_mapInsert_self, Manager.decrypt_encrypt]
  · exact countKey_mapInsert _ _ _ (keysNodup_mapInsert _ _ _ hnd)
  · rw [get_eq_bind]
    simp [mapGet_mapInsert_self, Manager.decrypt_encrypt]

theorem overwrite_semantics_witness :
    (some [5] : Option (List Nat)) = some [5] ∧
      countKey exStore2.inner (hkey [7]) = 1 ∧
      exStore2.get [7] = some [6] :=
  overwrite_semantics exStore0 exStore1 exStore2 [7] [5] [6] none (some [5])
    (by decide) (by decide) (by decide) (by decide) (by decide) (by decide)

/-- C6: for a stored (well-sealed) entry and a destination buffer shorter
than the stored ciphertext, `get_to` returns the distinguished zero-length
success `Ok(0)` rather than an error, and `remove_to` returns `Ok(0)` and
leaves the store unchanged (the entry present); and `Ok(0)` can never be
the length of a successfully read value (with a big enough buffer a
successful `get_to` returns a positive length), because stored values are
non-empty by construction. -/
theorem buffer_sizing_sentinel (k : List Nat) (s : Store) (K c dest dbig : List Nat)
    (n : Nat)
    (hsealed : storeSealed k s = true)
    (hmem : mapGet s.inner (hkey K) = some c)
    (hsmall : dest.length < c.length)
    (hbig : c.length ≤ dbig.length) :
    (s.get_to K dest).1 = Except.ok 0 ∧
      (s.remove_to K dest).1.1 = Except.ok 0 ∧
      (s.remove_to K dest).2 = s ∧
      ((s.get_to K dbig).1 = Except.ok n → 0 < n) := by
  have he := storeSealed_get k s (hkey K) c hsealed hmem
  have hlen17 := (entrySealed_spec k (hkey K) c he).1
  refine ⟨?_, ?_, ?_, ?_⟩
  · rw [Store.get_to, inner_get_to_of_small s _ _ c hmem hsmall]
  · rw [Store.remove_to, inner_get_to_of_small s _ _ c hmem hsmall]
    rfl
  · rw [Store.remove_to, inner_get_to_of_small s _ _ c hmem hsmall]
    rfl
  · intro hok
    rw [Store.get_to, inner_get_to_of_fit s _ _ c hmem (by omega)] at hok
    cases hd : s.enc.decrypt (hkey K) c with
    | none =>
      rw [hd] at hok
      simp at hok
    | some w =>
      rw [hd] at hok
      simp only [Except.ok.injEq] at hok
      obtain ⟨h16, hw⟩ := Manager.decrypt_some_length _ _ c w hd
      omega

theorem buffer_sizing_sentinel_witness :
    (exStore1.get_to [7] []).1 = Except.ok 0 ∧
      (exStore1.remove_to [7] []).1.1 = Except.ok 0 ∧
      (exStore1.remove_to [7] []).2 = exStore1 ∧
      ((exStore1.get_to [7] (List.replicate 20 0)).1 = Except.ok 1 → 0 < 1) :=
  buffer_sizing_sentinel (generate_key [1] [2]) exStore1 [7] exCipher1 []
    (List.replicate 20 0) 1 (by decide) (by decide) (by decide) (by decide)

/-- C7: the 96-bit nonce is the first 12 bytes of the native-endian
encoding of the nonce input, and `insert` always seals under the nonce
derived from the hashed logical key with an unchanged manager — so every
encryption for the same logical key (every overwrite) uses the identical
nonce under the identical symmetric key. -/
theorem nonce_from_hashed_key (input : Nat) (s s' : Store) (K V : List Nat)
    (r : Option (List Nat))
    (h : s.insert_owned K V = some (r, s')) :
    s.enc.get_nonce input = (u128_to_ne_bytes input).take 12 ∧
      s'.enc = s.enc ∧
      mapGet s'.inner (hkey K) =
        some (V ++ mkTag s.enc.key (s.enc.get_nonce (hkey K)) V) := by
  have hV : V ≠ [] := by
    intro hc
    subst hc
    rw [Store.insert_owned] at h
    simp at h
  rw [insert_owned_eq s K V hV] at h
  simp only [Option.some.injEq, Prod.mk.injEq] at h
  obtain ⟨hr, hs'⟩ := h
  subst hs'
  exact ⟨rfl, rfl, mapGet_mapInsert_self _ _ _⟩

theorem nonce_from_hashed_key_witness :
    exStore0.enc.get_nonce 5 = (u128_to_ne_bytes 5).take 12 ∧
      exStore1.enc = exStore0.enc ∧
      mapGet exStore1.inner (hkey [7]) =
        some ([5] ++ mkTag exStore0.enc.key (exStore0.enc.get_nonce (hkey [7])) [5]) :=
  nonce_from_hashed_key 5 exStore0 exStore1 [7] [5] none (by decide)

/-- C8: constructing a store (`new` or `from_inner`) with an empty user or
an empty passphrase, or calling `insert`/`insert_owned` with an empty
value, aborts (the `assert` panics, modelled as `none`) rather than
returning a recoverable error; with non-empty arguments these operations
never abort. -/
theorem precondition_violations_abort :
    (∀ (m : StoreMap) (u p : List Nat),
        (Store.from_inner m u p).isSome ↔ (u ≠ [] ∧ p ≠ [])) ∧
      (∀ (u p : List Nat), (Store.new u p).isSome ↔ (u ≠ [] ∧ p ≠ [])) ∧
      (∀ (s : Store) (K V : List Nat), (s.insert_owned K V).isSome ↔ V ≠ []) ∧
      (∀ (s : Store) (K V : List Nat), (s.insert K V).isSome ↔ V ≠ []) := by
  have hfi : ∀ (m : StoreMap) (u p : List Nat),
      (Store.from_inner m u p).isSome ↔ (u ≠ [] ∧ p ≠ []) := by
    intro m u p
    cases u <;> cases p <;> simp [Store.from_inner]
  have hio : ∀ (s : Store) (K V : List Nat),
      (s.insert_owned K V).isSome ↔ V ≠ [] := by
    intro s K V
    cases V <;> simp [Store.insert_owned]
  exact ⟨hfi, fun u p => hfi [] u p, hio, fun s K V => hio s K V⟩

/-- C9: `derive_key` (`generate_key`) is deterministic — identical inputs
always yield the identical 32-byte key — so two stores constructed from
the same credentials hold the same symmetric key. -/
theorem derive_key_deterministic (u p : List Nat) (m1 m2 : StoreMap)
    (s1 s2 : Store)
    (h1 : Store.from_inner m1 u p = some s1)
    (h2 : Store.from_inner m2 u p = some s2) :
    generate_key u p = generate_key u p ∧
      (generate_key u p).length = 32 ∧
      s1.enc.key = generate_key u p ∧
      s1.enc.key = s2.enc.key := by
  have e1 := from_inner_some _ _ _ _ h1
  have e2 := from_inner_some _ _ _ _ h2
  subst e1
  subst e2
  exact ⟨rfl, by simp [generate_key], rfl, rfl⟩

theorem derive_key_deterministic_witness :
    generate_key [1] [2] = generate_key [1] [2] ∧
      (generate_key [1] [2]).length = 32 ∧
      exStore0.enc.key = generate_key [1] [2] ∧
      exStore0.enc.key = exStore0.enc.key :=
  derive_key_deterministic [1] [2] [] [] exStore0 exStore0 (by decide) (by decide)

/-- C10: in `get_to` and `remove_to` the insufficient-space check runs
before any decryption attempt: for a present key and a destination shorter
than the stored ciphertext the result is `Ok(0)` with no hypothesis about
the store's credentials, while for an absent key the result is `Err` — so
with wrong credentials and a small buffer the `Ok(0)`/`Err` distinction
reveals whether the key is present. -/
theorem size_check_before_decrypt (s : Store) (K Kabs c dest : List Nat)
    (hmem : mapGet s.inner (hkey K) = some c)
    (hsmall : dest.length < c.length)
    (habs : mapGet s.inner (hkey Kabs) = none) :
    (s.get_to K dest).1 = Except.ok 0 ∧
      (s.remove_to K dest).1.1 = Except.ok 0 ∧
      (s.get_to Kabs dest).1 = Except.error () ∧
      (s.remove_to Kabs dest).1.1 = Except.error () := by
  refine ⟨?_, ?_, ?_, ?_⟩
  · rw [Store.get_to, inner_get_to_of_small s _ _ c hmem hsmall]
  · rw [Store.remove_to, inner_get_to_of_small s _ _ c hmem hsmall]
    rfl
  · rw [Store.get_to, inner_get_to_of_none s _ _ habs]
  · rw [Store.remove_to, inner_get_to_of_none s _ _ habs]

theorem size_check_before_decrypt_witness :
    (exStoreWrong.get_to [7] []).1 = Except.ok 0 ∧
      (exStoreWrong.remove_to [7] []).1.1 = Except.ok 0 ∧
      (exStoreWrong.get_to [9] []).1 = Except.error () ∧
      (exStoreWrong.remove_to [9] []).1.1 = Except.error () :=
  size_check_before_decrypt exStoreWrong [7] [9] exCipher1 []
    (by decide) (by decide) (by decide)
